import Mathlib

/-!
The query-execution fuzz harness and the `system.database_engines` accessor.

A shallow embedding of

* `src/Interpreters/fuzzers/execute_query_fuzzer.cpp` (`LLVMFuzzerTestOneInput`), and
* `src/Storages/System/StorageSystemDatabaseEngines.cpp`
  (`getNamesAndTypes`, `fillData`).

The engine itself (context construction, the `register*` functions, `executeQuery`,
`PullingPipelineExecutor`) is external to these files.  Every external call is a
constructor of `Call`; what the engine does at such a call (return or throw, and what
it returns) is a parameter `Env` of the harness.  Every call the harness makes is
appended, with its outcome, to the `trace` of the process, so that statements about
"which calls were made, in which order, with which arguments" are statements about a
list.
-/

namespace DB

/-! ## Types used by the harness -/

/-- The handle type returned by `Context::createShared()`; a holder is identified by a number. -/
abbrev SharedContextHolder := Nat

/-- The handle type returned by `Context::createGlobal(...)`; a context is identified by a number. -/
abbrev ContextMutablePtr := Nat

/-- The values of `Context::ApplicationType` (the harness only ever passes `LOCAL`). -/
inductive ApplicationType
  | SERVER
  | CLIENT
  | LOCAL
  deriving DecidableEq, Repr

/-- The values of `QueryProcessingStage` (the harness only ever passes `Complete`). -/
inductive QueryProcessingStage
  | FetchColumns
  | WithMergeableState
  | Complete
  deriving DecidableEq, Repr

/-- The struct `QueryFlags`; the harness sets its designated member `.internal`. -/
structure QueryFlags where
  internal : Bool := false
  deriving DecidableEq, Repr

/-- Modelled from the spec: the class `Block` is declared outside the two source files.
A block is the list of its columns, each column the list of its values; the
default-constructed block has no column, and `operator bool` ("a pulled batch is
non-empty") is true exactly when the block has content. -/
structure Block where
  data : List (List String) := []
  deriving DecidableEq, Repr

/-- The conversion `Block::operator bool`. -/
def Block.toBool (b : Block) : Bool := !b.data.isEmpty

/-- A `std::string`: a sequence of bytes. -/
abbrev StdString := List UInt8

/-- The external calls made by `LLVMFuzzerTestOneInput`, with their arguments.
A pointer argument read from a static variable is an `Option` (`none` is the null value the
static holds before it is assigned). -/
inductive Call
  | createShared
  | createGlobal (shared : Option SharedContextHolder)
  | makeGlobalContext (context : Option ContextMutablePtr)
  | setApplicationType (context : Option ContextMutablePtr) (type : ApplicationType)
  | registerFunctions
  | registerAggregateFunctions
  | registerTableFunctions
  | registerDatabases
  | registerStorages
  | registerDictionaries
  | registerDisks (global_skip_access_check : Bool)
  | registerFormats
  | executeQuery (query : StdString) (context : Option ContextMutablePtr) (flags : QueryFlags)
      (stage : QueryProcessingStage)
  | PullingPipelineExecutor
  | pull
  deriving DecidableEq, Repr

/-- One entry of the trace: a call that was made, and whether it threw. -/
structure Event where
  call : Call
  raised : Bool
  deriving DecidableEq, Repr

/-- What one `executor.pull(res)` does: it throws, or it returns a `bool` and leaves a block
in `res`. -/
inductive PullOutcome
  | throws
  | returns (more : Bool) (res : Block)
  deriving DecidableEq, Repr

/-- The behaviour of the engine during one call of the entry point.
`throws c` says whether the call `c` throws; `createShared` and `createGlobal` are the handles
the two constructors return when they return; `pull n` is the outcome of the `(n+1)`-th
`executor.pull(res)` of this call. -/
structure Env where
  throws : Call → Bool
  createShared : SharedContextHolder
  createGlobal : ContextMutablePtr
  pull : Nat → PullOutcome

/-- The state that outlives a call: the three function-local statics of
`LLVMFuzzerTestOneInput` and the trace of the calls made so far.
`initialized = none` means that the initialization of `static bool initialized` has not
completed; `some v` means it has completed with the value `v`. -/
structure Process where
  shared_context : Option SharedContextHolder := none
  context : Option ContextMutablePtr := none
  initialized : Option Bool := none
  trace : List Event := []
  deriving DecidableEq, Repr

/-- The process before the first call of the entry point. -/
def Process.initial : Process := {}

/-- Append an event to the trace. -/
def Process.log (p : Process) (c : Call) (raised : Bool) : Process :=
  { p with trace := p.trace ++ [⟨c, raised⟩] }

/-! ## Control flow: normal completion, exception, or still running -/

/-- How a piece of code ends: it completes with a value, it leaves by an exception, or it
is still running when the fuel given to the pull loop is used up.  The process state is kept
on all three paths. -/
inductive Completion (α : Type)
  | normal (a : α) (p : Process)
  | thrown (p : Process)
  | running (p : Process)
  deriving DecidableEq, Repr

/-- The process state at the end. -/
def Completion.process {α : Type} : Completion α → Process
  | .normal _ p => p
  | .thrown p => p
  | .running p => p

/-- A piece of code of the harness. -/
def Harness (α : Type) : Type := Process → Completion α

/-- Sequencing: the second part runs only when the first completes normally. -/
def Harness.bind {α β : Type} (x : Harness α) (f : α → Harness β) : Harness β :=
  fun p =>
    match x p with
    | .normal a p' => f a p'
    | .thrown p' => .thrown p'
    | .running p' => .running p'

instance : Monad Harness where
  pure a := fun p => .normal a p
  bind := Harness.bind

/-- The handler `try { body } catch (...) { }`: an exception thrown by the body ends there. -/
def tryCatchAll (body : Harness Unit) : Harness Unit :=
  fun p =>
    match body p with
    | .normal _ p' => .normal () p'
    | .thrown p' => .normal () p'
    | .running p' => .running p'

/-- Make the external call `c`: it is logged, and it throws when the engine says so. -/
def invoke (env : Env) (c : Call) : Harness Unit :=
  fun p => if env.throws c then .thrown (p.log c true) else .normal () (p.log c false)

/-- Read the static `shared_context`. -/
def getSharedContext : Harness (Option SharedContextHolder) :=
  fun p => .normal p.shared_context p

/-- Read the static `context`. -/
def getContext : Harness (Option ContextMutablePtr) :=
  fun p => .normal p.context p

/-- Assign the static `shared_context`. -/
def setSharedContext (h : SharedContextHolder) : Harness Unit :=
  fun p => .normal () { p with shared_context := some h }

/-- Assign the static `context`. -/
def setContext (c : ContextMutablePtr) : Harness Unit :=
  fun p => .normal () { p with context := some c }

/-! ## `execute_query_fuzzer.cpp` -/

/-- The lambda `auto initialize = [&]() mutable { ... }` (lines 25-42). -/
def initializeLambda (env : Env) : Harness Bool := do
  -- shared_context = Context::createShared();
  invoke env .createShared
  setSharedContext env.createShared
  -- context = Context::createGlobal(shared_context.get());
  invoke env (.createGlobal (← getSharedContext))
  setContext env.createGlobal
  -- context->makeGlobalContext();
  invoke env (.makeGlobalContext (← getContext))
  -- context->setApplicationType(Context::ApplicationType::LOCAL);
  invoke env (.setApplicationType (← getContext) .LOCAL)
  invoke env .registerFunctions
  invoke env .registerAggregateFunctions
  invoke env .registerTableFunctions
  invoke env .registerDatabases
  invoke env .registerStorages
  invoke env .registerDictionaries
  invoke env (.registerDisks true)
  invoke env .registerFormats
  return true

/-- The declaration `static bool initialized = initialize();` (line 44).
A function-local static is initialized the first time control passes through its
declaration; if the initializer exits by an exception the initialization is not complete and
is tried again the next time control enters the declaration (C++ [stmt.dcl]). -/
def staticInitialized (env : Env) : Harness Bool :=
  fun p =>
    match p.initialized with
    | some v => .normal v p
    | none =>
      match initializeLambda env p with
      | .normal v p' => .normal v { p' with initialized := some v }
      | .thrown p' => .thrown p'
      | .running p' => .running p'

/-- Which operand of `!res && executor.pull(res)` ended the loop. -/
inductive LoopExit
  | blockNonEmpty
  | pullReturnedFalse
  deriving DecidableEq, Repr

/-- The loop `while (!res && executor.pull(res));` (line 51).
`n` counts the pulls already made; one unit of fuel is one evaluation of the loop condition. -/
def pullLoop (env : Env) : Nat → Block → Nat → Harness LoopExit
  | 0, _, _ => fun p => .running p
  | fuel + 1, res, n =>
    if !res.toBool then
      fun p =>
        match env.pull n with
        | .throws => .thrown (p.log .pull true)
        | .returns more res' =>
          if more then pullLoop env fuel res' (n + 1) (p.log .pull false)
          else .normal .pullReturnedFalse (p.log .pull false)
    else
      fun p => .normal .blockNonEmpty p

/-- The string `std::string(reinterpret_cast<const char*>(data), size)` (line 20): the `size`
bytes found at `data`. -/
def stdString (data : Nat → UInt8) (size : Nat) : StdString :=
  (List.range size).map data

/-- The body of the `try` block (lines 20-51). -/
def tryBody (env : Env) (fuel : Nat) (data : Nat → UInt8) (size : Nat) : Harness Unit := do
  let input := stdString data size
  let _initialized ← staticInitialized env
  -- auto io = DB::executeQuery(input, context, QueryFlags{ .internal = true },
  --     QueryProcessingStage::Complete).second;
  invoke env (.executeQuery input (← getContext) { internal := true } .Complete)
  -- PullingPipelineExecutor executor(io.pipeline);
  invoke env .PullingPipelineExecutor
  -- Block res;
  let res : Block := {}
  let _ ← pullLoop env fuel res 0
  return ()

/-- The entry point `LLVMFuzzerTestOneInput(data, size)` (lines 16-58). -/
def LLVMFuzzerTestOneInput (env : Env) (fuel : Nat) (data : Nat → UInt8) (size : Nat) :
    Harness Int := do
  tryCatchAll (tryBody env fuel data size)
  return 0

/-- One call of the entry point by the fuzz driver: the buffer and what the engine does
during the call. -/
structure FuzzCall where
  env : Env
  data : Nat → UInt8
  size : Nat

/-- A sequence of calls of the entry point in one process, each call starting in the state the
previous one left (the statics are function-local statics).  The result is the list of the
values returned; a call that is still running when its fuel is used up ends the sequence. -/
def fuzz (fuel : Nat) : List FuzzCall → Harness (List Int)
  | [] => fun p => .normal [] p
  | c :: cs => fun p =>
    match LLVMFuzzerTestOneInput c.env fuel c.data c.size p with
    | .normal r p' =>
      match fuzz fuel cs p' with
      | .normal rs p'' => .normal (r :: rs) p''
      | .thrown p'' => .thrown p''
      | .running p'' => .running p''
    | .thrown p' => .thrown p'
    | .running p' => .running p'

/-! ## `StorageSystemDatabaseEngines.cpp` -/

/-- The data types that occur in the accessor. -/
inductive DataType
  | DataTypeString
  deriving DecidableEq, Repr

/-- A `NameAndTypePair`. -/
structure NameAndTypePair where
  name : String
  type : DataType
  deriving DecidableEq, Repr

/-- A column under construction: the values inserted so far. -/
abbrev MutableColumn := List String

/-- The vector `MutableColumns`. -/
abbrev MutableColumns := List MutableColumn

/-- `StorageSystemDatabaseEngines::getNamesAndTypes` (lines 9-14). -/
def StorageSystemDatabaseEngines.getNamesAndTypes : List NameAndTypePair :=
  [{ name := "name", type := .DataTypeString }]

/-- The statement `res_columns[i]->insert(engine)`; there is no result when `res_columns` has
no element `i`. -/
def insertAt (res_columns : MutableColumns) (i : Nat) (engine : String) :
    Option MutableColumns :=
  match res_columns.get? i with
  | some column => some (res_columns.set i (column ++ [engine]))
  | none => none

/-- `StorageSystemDatabaseEngines::fillData` (lines 16-23).  The registry
`DatabaseFactory::instance().getDatabaseEngines()` is the list of its entries in iteration
order; `Creator` is the type of the values of the map, which the loop ignores.  The two
unnamed parameters (`ContextPtr`, `const SelectQueryInfo &`) are not used by the body. -/
def StorageSystemDatabaseEngines.fillData {Creator : Type} :
    List (String × Creator) → MutableColumns → Option MutableColumns
  | [], res_columns => some res_columns
  | (engine, _) :: rest, res_columns =>
    -- int i = 0; res_columns[i++]->insert(engine);
    let i := 0
    match insertAt res_columns i engine with
    | some res_columns' => StorageSystemDatabaseEngines.fillData rest res_columns'
    | none => none

/-! ## Definitions used in the statements and proofs -/

/-- The calls of a complete run of the initializer, in the order of lines 27-39, with the
arguments they have in such a run. -/
def initCalls (env : Env) : List Call :=
  [ .createShared,
    .createGlobal (some env.createShared),
    .makeGlobalContext (some env.createGlobal),
    .setApplicationType (some env.createGlobal) .LOCAL,
    .registerFunctions,
    .registerAggregateFunctions,
    .registerTableFunctions,
    .registerDatabases,
    .registerStorages,
    .registerDictionaries,
    .registerDisks true,
    .registerFormats ]

/-- The event of a call that returned. -/
def Event.returned (c : Call) : Event := ⟨c, false⟩

/-- The event of a call that threw. -/
def Event.threw (c : Call) : Event := ⟨c, true⟩

/-- The assignment that follows a call of the initializer when the call returns. -/
def afterReturn (env : Env) : Call → Process → Process
  | .createShared, p => { p with shared_context := some env.createShared }
  | .createGlobal _, p => { p with context := some env.createGlobal }
  | _, p => p

/-- Make the calls of a list one after the other, up to the first that throws. -/
def runCalls (env : Env) : List Call → Process → Completion Unit
  | [], p => .normal () p
  | c :: cs, p =>
    if env.throws c then .thrown (p.log c true)
    else runCalls env cs (afterReturn env c (p.log c false))

/-- Replace the value of a completion. -/
def Completion.withValue {α β : Type} (b : β) : Completion α → Completion β
  | .normal _ p => .normal b p
  | .thrown p => .thrown p
  | .running p => .running p

/-- A pull after which the loop condition is false: it throws, it returns `false`, or it
leaves a non-empty block. -/
def PullOutcome.endsLoop : PullOutcome → Bool
  | .throws => true
  | .returns more res => !more || res.toBool

/-- How the loop ends when its `(k+1)`-th pull is the first that ends it, with outcome `o`. -/
def loopEnd (p : Process) (k : Nat) : PullOutcome → Completion LoopExit
  | .throws =>
    .thrown { p with trace := p.trace ++ List.replicate k (Event.returned .pull) ++
                [Event.threw .pull] }
  | .returns more _ =>
    .normal (if more then .blockNonEmpty else .pullReturnedFalse)
      { p with trace := p.trace ++ List.replicate (k + 1) (Event.returned .pull) }

/-- The call of line 47, for a query text and the value of the static `context`. -/
def submission (input : StdString) (context : Option ContextMutablePtr) : Call :=
  .executeQuery input context { internal := true } .Complete

/-- Lines 47-51: what follows the declaration of `initialized` in the `try` block. -/
def execPart (env : Env) (fuel : Nat) (input : StdString) : Harness Unit := do
  invoke env (.executeQuery input (← getContext) { internal := true } .Complete)
  invoke env .PullingPipelineExecutor
  let res : Block := {}
  let _ ← pullLoop env fuel res 0
  return ()

/-- The kinds of call made after the initialization. -/
def Call.isExec : Call → Bool
  | .executeQuery _ _ _ _ => true
  | .PullingPipelineExecutor => true
  | .pull => true
  | _ => false

/-- The kinds of call made by the initializer: the two constructions, the two settings of the
context, and the registrations. -/
def Call.isInit (c : Call) : Bool := !c.isExec

/-- The query submissions. -/
def Call.isExecuteQuery : Call → Bool
  | .executeQuery _ _ _ _ => true
  | _ => false

/-- The state after a complete run of the initializer from `p`, with the guard set. -/
def afterInit (env : Env) (p : Process) : Process :=
  { shared_context := some env.createShared
    context := some env.createGlobal
    initialized := some true
    trace := p.trace ++ (initCalls env).map Event.returned }

/-! ## Engines and buffers used as concrete inputs -/

/-- An engine in which nothing throws and the first pull reports exhaustion. -/
def Env.quiet : Env :=
  { throws := fun _ => false
    createShared := 1
    createGlobal := 2
    pull := fun _ => .returns false {} }

/-- An engine in which nothing throws and every pull returns `true` with an empty block. -/
def Env.spinning : Env :=
  { throws := fun _ => false
    createShared := 1
    createGlobal := 2
    pull := fun _ => .returns true {} }

/-- An engine in which `registerFormats` throws. -/
def Env.brokenFormats : Env :=
  { throws := fun c => decide (c = .registerFormats)
    createShared := 3
    createGlobal := 4
    pull := fun _ => .returns false {} }

/-- An engine whose third pull is the first to leave a non-empty block. -/
def Env.thirdPullHasRows : Env :=
  { throws := fun _ => false
    createShared := 1
    createGlobal := 2
    pull := fun n => if n < 2 then .returns true {} else .returns true { data := [["1"]] } }

/-- An engine whose pulls leave empty blocks and whose second pull reports exhaustion. -/
def Env.emptyResult : Env :=
  { throws := fun _ => false
    createShared := 1
    createGlobal := 2
    pull := fun n => if n < 1 then .returns true {} else .returns false {} }

/-- The empty buffer. -/
def emptyBuffer : Nat → UInt8 := fun _ => 0

/-- The buffer holding the bytes of `SELECT 1`, followed by zero bytes. -/
def select1 : Nat → UInt8 := fun i => ([83, 69, 76, 69, 67, 84, 32, 49] : List UInt8).getD i 0

/-- The trace holds a complete run of the initializer: its twelve calls, one after the other,
all returned. -/
def InitDone (t : List Event) : Prop :=
  ∃ env a b, t = a ++ (initCalls env).map Event.returned ++ b

/-- Every submission, executor construction and pull of the trace comes after a complete run
of the initializer. -/
def ExecAfterInit (t : List Event) : Prop :=
  ∀ pre e post, t = pre ++ e :: post → e.call.isExec = true → InitDone pre

/-- The invariant of the process: a set guard means a complete run of the initializer is in the
trace, and every call of the execution part comes after such a run. -/
def Process.Ordered (p : Process) : Prop :=
  (p.initialized ≠ none → InitDone p.trace) ∧ ExecAfterInit p.trace

/-! ## Sequencing -/

theorem bind_apply {α β : Type} (x : Harness α) (f : α → Harness β) (p : Process) :
    (x >>= f) p = Harness.bind x f p := rfl

theorem pure_apply {α : Type} (a : α) (p : Process) :
    (pure a : Harness α) p = .normal a p := rfl

theorem bind_invoke {β : Type} (env : Env) (c : Call) (f : Unit → Harness β) (p : Process) :
    (invoke env c >>= f) p =
      if env.throws c then .thrown (p.log c true) else f () (p.log c false) := by
  simp only [bind_apply, Harness.bind, invoke]
  split_ifs <;> rfl

theorem bind_getSharedContext {β : Type} (f : Option SharedContextHolder → Harness β)
    (p : Process) : (getSharedContext >>= f) p = f p.shared_context p := rfl

theorem bind_getContext {β : Type} (f : Option ContextMutablePtr → Harness β)
    (p : Process) : (getContext >>= f) p = f p.context p := rfl

theorem bind_setSharedContext {β : Type} (h : SharedContextHolder) (f : Unit → Harness β)
    (p : Process) :
    (setSharedContext h >>= f) p = f () { p with shared_context := some h } := rfl

theorem bind_setContext {β : Type} (c : ContextMutablePtr) (f : Unit → Harness β)
    (p : Process) : (setContext c >>= f) p = f () { p with context := some c } := rfl

/-! ## The initializer as a list of calls -/

theorem withValue_normal {α β : Type} (b : β) (a : α) (p : Process) :
    (Completion.normal a p).withValue b = .normal b p := rfl

theorem withValue_thrown {α β : Type} (b : β) (p : Process) :
    (Completion.thrown p : Completion α).withValue b = .thrown p := rfl

theorem withValue_ite {α β : Type} (b : β) (c : Prop) [Decidable c] (x y : Completion α) :
    (if c then x else y).withValue b = if c then x.withValue b else y.withValue b := by
  split_ifs <;> rfl

/-- The lambda makes the calls of `initCalls`, in order, up to the first that throws. -/
theorem initializeLambda_eq_runCalls (env : Env) (p : Process) :
    initializeLambda env p = (runCalls env (initCalls env) p).withValue true := by
  simp only [initializeLambda, initCalls, runCalls, bind_invoke, bind_getSharedContext,
    bind_getContext, bind_setSharedContext, bind_setContext, afterReturn, Process.log,
    pure_apply, withValue_ite, withValue_normal, withValue_thrown]

theorem runCalls_all_return (env : Env) (cs : List Call) (p : Process)
    (h : ∀ c ∈ cs, env.throws c = false) :
    ∃ p', runCalls env cs p = .normal () p' ∧ p'.trace = p.trace ++ cs.map Event.returned ∧
      p'.initialized = p.initialized := by
  induction cs generalizing p with
  | nil => exact ⟨p, rfl, by simp, rfl⟩
  | cons c cs ih =>
    have hc : env.throws c = false := h c (List.mem_cons_self _ _)
    obtain ⟨p', h1, h2, h3⟩ := ih (afterReturn env c (p.log c false))
      (fun x hx => h x (List.mem_cons_of_mem _ hx))
    refine ⟨p', by simp [runCalls, hc, h1], ?_, ?_⟩
    · rw [h2]; cases c <;> simp [afterReturn, Process.log, Event.returned]
    · rw [h3]; cases c <;> simp [afterReturn, Process.log]

theorem runCalls_first_throw (env : Env) (pre : List Call) (c : Call) (post : List Call)
    (p : Process) (hpre : ∀ x ∈ pre, env.throws x = false) (hc : env.throws c = true) :
    ∃ p', runCalls env (pre ++ c :: post) p = .thrown p' ∧
      p'.trace = p.trace ++ pre.map Event.returned ++ [Event.threw c] ∧
      p'.initialized = p.initialized := by
  induction pre generalizing p with
  | nil => exact ⟨p.log c true, by simp [runCalls, hc], by simp [Process.log, Event.threw], rfl⟩
  | cons x pre ih =>
    have hx : env.throws x = false := hpre x (List.mem_cons_self _ _)
    obtain ⟨p', h1, h2, h3⟩ := ih (afterReturn env x (p.log x false))
      (fun y hy => hpre y (List.mem_cons_of_mem _ hy))
    refine ⟨p', by simp [runCalls, hx, h1], ?_, ?_⟩
    · rw [h2]; cases x <;> simp [afterReturn, Process.log, Event.returned]
    · rw [h3]; cases x <;> simp [afterReturn, Process.log]

/-- Either every call of a list returns, or there is a first one that throws. -/
theorem throws_split (env : Env) (cs : List Call) :
    (∀ c ∈ cs, env.throws c = false) ∨
      ∃ pre c post, cs = pre ++ c :: post ∧ (∀ x ∈ pre, env.throws x = false) ∧
        env.throws c = true := by
  induction cs with
  | nil => left; simp
  | cons c cs ih =>
    by_cases hc : env.throws c = true
    · right; exact ⟨[], c, cs, rfl, by simp, hc⟩
    · have hc' : env.throws c = false := by simpa using hc
      rcases ih with h | ⟨pre, x, post, h1, h2, h3⟩
      · left
        intro y hy
        rcases List.mem_cons.mp hy with rfl | hy
        · exact hc'
        · exact h y hy
      · right
        refine ⟨c :: pre, x, post, by simp [h1], ?_, h3⟩
        intro y hy
        rcases List.mem_cons.mp hy with rfl | hy
        · exact hc'
        · exact h2 y hy

/-- A complete run of the initializer: the final state, in full. -/
theorem initializeLambda_all_return (env : Env) (p : Process)
    (h : ∀ c ∈ initCalls env, env.throws c = false) :
    initializeLambda env p =
      .normal true
        { shared_context := some env.createShared
          context := some env.createGlobal
          initialized := p.initialized
          trace := p.trace ++ (initCalls env).map Event.returned } := by
  rw [initializeLambda_eq_runCalls]
  simp only [initCalls, List.mem_cons, List.mem_singleton, forall_eq_or_imp, forall_eq,
    List.not_mem_nil, false_implies, implies_true, and_true] at h
  obtain ⟨h1, h2, h3, h4, h5, h6, h7, h8, h9, h10, h11, h12⟩ := h
  simp [initCalls, runCalls, h1, h2, h3, h4, h5, h6, h7, h8, h9, h10, h11, h12, afterReturn,
    Process.log, Event.returned, Completion.withValue]

/-- A run of the initializer in which a call throws: it stops there. -/
theorem initializeLambda_first_throw (env : Env) (p : Process) (pre : List Call) (c : Call)
    (post : List Call) (hsplit : initCalls env = pre ++ c :: post)
    (hpre : ∀ x ∈ pre, env.throws x = false) (hc : env.throws c = true) :
    ∃ p', initializeLambda env p = .thrown p' ∧
      p'.trace = p.trace ++ pre.map Event.returned ++ [Event.threw c] ∧
      p'.initialized = p.initialized := by
  obtain ⟨p', h1, h2, h3⟩ := runCalls_first_throw env pre c post p hpre hc
  exact ⟨p', by rw [initializeLambda_eq_runCalls, hsplit, h1]; rfl, h2, h3⟩

/-! ## The pull loop: auxiliary facts -/

theorem Block.eq_empty_of_toBool {b : Block} (h : b.toBool = false) : b = {} := by
  cases b with
  | mk data =>
    cases data with
    | nil => rfl
    | cons x xs => simp [Block.toBool] at h

theorem not_endsLoop {o : PullOutcome} (h : o.endsLoop = false) : o = .returns true {} := by
  cases o with
  | throws => simp [PullOutcome.endsLoop] at h
  | returns more res =>
    simp only [PullOutcome.endsLoop, Bool.or_eq_false_iff, Bool.not_eq_false'] at h
    rw [h.1, Block.eq_empty_of_toBool h.2]

/-- One turn of the loop on the empty block. -/
theorem pullLoop_succ_empty (env : Env) (fuel n : Nat) (p : Process) :
    pullLoop env (fuel + 1) {} n p =
      match env.pull n with
      | .throws => .thrown (p.log .pull true)
      | .returns more res' =>
        if more then pullLoop env fuel res' (n + 1) (p.log .pull false)
        else .normal .pullReturnedFalse (p.log .pull false) := by
  simp [pullLoop, Block.toBool]

/-- The loop condition on a non-empty block. -/
theorem pullLoop_succ_nonEmpty (env : Env) (fuel n : Nat) (res : Block) (p : Process)
    (h : res.toBool = true) : pullLoop env (fuel + 1) res n p = .normal .blockNonEmpty p := by
  simp [pullLoop, h]

/-- The loop only pulls: it leaves the statics alone and appends pull events. -/
theorem pullLoop_process (env : Env) (fuel : Nat) (res : Block) (n : Nat) (p : Process) :
    ∃ E, (pullLoop env fuel res n p).process = { p with trace := p.trace ++ E } ∧
      ∀ e ∈ E, e.call = .pull := by
  induction fuel generalizing res n p with
  | zero => exact ⟨[], by simp [pullLoop, Completion.process], by simp⟩
  | succ fuel ih =>
    by_cases hres : res.toBool = true
    · rw [pullLoop_succ_nonEmpty env fuel n res p hres]
      exact ⟨[], by simp [Completion.process], by simp⟩
    · have hres' : res = {} := Block.eq_empty_of_toBool (by simpa using hres)
      subst hres'
      rw [pullLoop_succ_empty]
      cases hp : env.pull n with
      | throws =>
        exact ⟨[⟨.pull, true⟩], by simp [Completion.process, Process.log], by simp⟩
      | returns more res' =>
        cases more with
        | false =>
          exact ⟨[⟨.pull, false⟩], by simp [Completion.process, Process.log], by simp⟩
        | true =>
          obtain ⟨E, h1, h2⟩ := ih res' (n + 1) (p.log .pull false)
          refine ⟨⟨.pull, false⟩ :: E, ?_, ?_⟩
          · simp only [if_true]
            rw [h1]
            simp [Process.log]
          · intro e he
            rcases List.mem_cons.mp he with rfl | he
            · rfl
            · exact h2 e he

/-- The loop on the empty block, when the pulls `n`, ..., `n + k - 1` return `true` with an
empty block and the pull `n + k` ends the loop. -/
theorem pullLoop_exact (env : Env) (k fuel n : Nat) (p : Process) (o : PullOutcome)
    (hbefore : ∀ j < k, env.pull (n + j) = .returns true {})
    (hat : env.pull (n + k) = o) (hends : o.endsLoop = true) (hfuel : k + 2 ≤ fuel) :
    pullLoop env fuel {} n p = loopEnd p k o := by
  induction k generalizing fuel n p with
  | zero =>
    obtain ⟨f, rfl⟩ : ∃ f, fuel = f + 2 := ⟨fuel - 2, by omega⟩
    rw [pullLoop_succ_empty]
    simp only [Nat.add_zero] at hat
    rw [hat]
    cases o with
    | throws => simp [loopEnd, Process.log, Event.threw]
    | returns more b =>
      cases more with
      | false => simp [loopEnd, Process.log, Event.returned]
      | true =>
        have hb : b.toBool = true := by simpa [PullOutcome.endsLoop] using hends
        simp [loopEnd, pullLoop_succ_nonEmpty env f (n + 1) b _ hb, Process.log,
          Event.returned]
  | succ k ih =>
    obtain ⟨f, rfl⟩ : ∃ f, fuel = f + 1 := ⟨fuel - 1, by omega⟩
    rw [pullLoop_succ_empty]
    have h0 : env.pull n = .returns true {} := by simpa using hbefore 0 (by omega)
    rw [h0]
    simp only [if_true]
    rw [ih f (n + 1) (p.log .pull false)
      (fun j hj => by have := hbefore (j + 1) (by omega); rwa [show n + (j + 1) = n + 1 + j by omega] at this)
      (by rw [← hat]; congr 1; omega) (by omega)]
    cases o with
    | throws => simp [loopEnd, Process.log, Event.returned, List.replicate_succ]
    | returns more b => simp [loopEnd, Process.log, Event.returned, List.replicate_succ]

/-- The first pull that ends the loop, when one does. -/
theorem exists_first_end (env : Env) (k : Nat) (h : (env.pull k).endsLoop = true) :
    ∃ k0, k0 ≤ k ∧ (env.pull k0).endsLoop = true ∧
      ∀ j < k0, env.pull j = .returns true {} := by
  classical
  have hex : ∃ i, (env.pull i).endsLoop = true := ⟨k, h⟩
  refine ⟨Nat.find hex, Nat.find_min' hex h, Nat.find_spec hex, ?_⟩
  intro j hj
  exact not_endsLoop (by simpa using Nat.find_min hex hj)

/-- The loop leaves when some pull ends it and the fuel reaches that pull. -/
theorem pullLoop_leaves (env : Env) (k fuel : Nat) (p : Process)
    (h : (env.pull k).endsLoop = true) (hfuel : k + 2 ≤ fuel) :
    ∃ E, E.length ≤ k + 1 ∧ (∀ e ∈ E, e.call = .pull) ∧
      ((∃ x, pullLoop env fuel {} 0 p = .normal x { p with trace := p.trace ++ E }) ∨
        pullLoop env fuel {} 0 p = .thrown { p with trace := p.trace ++ E }) := by
  obtain ⟨k0, hle, hends, hbefore⟩ := exists_first_end env k h
  have hex := pullLoop_exact env k0 fuel 0 p (env.pull k0)
    (fun j hj => by simpa using hbefore j hj) (by simp) hends (by omega)
  cases ho : env.pull k0 with
  | throws =>
    rw [ho, loopEnd] at hex
    refine ⟨List.replicate k0 (Event.returned .pull) ++ [Event.threw .pull], ?_, ?_, ?_⟩
    · simp; omega
    · intro e he
      rcases List.mem_append.mp he with he | he
      · rw [(List.mem_replicate.mp he).2]; rfl
      · rw [List.mem_singleton.mp he]; rfl
    · right; simpa [List.append_assoc] using hex
  | returns more b =>
    rw [ho, loopEnd] at hex
    refine ⟨List.replicate (k0 + 1) (Event.returned .pull), ?_, ?_, ?_⟩
    · simp; omega
    · intro e he
      rw [(List.mem_replicate.mp he).2]; rfl
    · left; exact ⟨_, hex⟩

/-! ## One call of the entry point -/

theorem tryBody_eq (env : Env) (fuel : Nat) (data : Nat → UInt8) (size : Nat) :
    tryBody env fuel data size =
      (staticInitialized env >>= fun _ => execPart env fuel (stdString data size)) := rfl

theorem bind_pure_apply {α β : Type} (x : Harness α) (b : β) (p : Process) :
    (x >>= fun _ => (pure b : Harness β)) p = (x p).withValue b := by
  simp only [bind_apply, Harness.bind]
  cases x p <;> rfl

theorem execPart_eq (env : Env) (fuel : Nat) (input : StdString) (p : Process) :
    execPart env fuel input p =
      if env.throws (submission input p.context) then
        .thrown (p.log (submission input p.context) true)
      else if env.throws .PullingPipelineExecutor then
        .thrown ((p.log (submission input p.context) false).log .PullingPipelineExecutor true)
      else
        (pullLoop env fuel {} 0
          ((p.log (submission input p.context) false).log
            .PullingPipelineExecutor false)).withValue () := by
  simp only [execPart, bind_getContext, bind_invoke, bind_pure_apply, submission]

/-- The execution part inside the handler: it submits the query first, then only constructs
the executor and pulls; it never leaves by an exception, and it completes when the loop
does. -/
theorem execPart_summary (env : Env) (fuel : Nat) (input : StdString) (p : Process) :
    ∃ b E, (tryCatchAll (execPart env fuel input) p).process =
        { p with trace := p.trace ++ ⟨submission input p.context, b⟩ :: E } ∧
      (∀ e ∈ E, e.call = .PullingPipelineExecutor ∨ e.call = .pull) ∧
      ((∃ q, tryCatchAll (execPart env fuel input) p = .normal () q) ∨
        ((∃ q, tryCatchAll (execPart env fuel input) p = .running q) ∧
          ∀ k, k + 2 ≤ fuel → (env.pull k).endsLoop = false)) := by
  simp only [tryCatchAll, execPart_eq]
  by_cases h1 : env.throws (submission input p.context) = true
  · exact ⟨true, [], by simp [h1, Completion.process, Process.log], by simp,
      Or.inl ⟨p.log (submission input p.context) true, by simp [h1]⟩⟩
  by_cases h2 : env.throws .PullingPipelineExecutor = true
  · exact ⟨false, [⟨.PullingPipelineExecutor, true⟩],
      by simp [h1, h2, Completion.process, Process.log], by simp,
      Or.inl ⟨(p.log (submission input p.context) false).log .PullingPipelineExecutor true,
        by simp [h1, h2]⟩⟩
  simp only [h1, h2, if_false, Bool.false_eq_true]
  obtain ⟨E, hE1, hE2⟩ := pullLoop_process env fuel {} 0
    ((p.log (submission input p.context) false).log .PullingPipelineExecutor false)
  refine ⟨false, ⟨.PullingPipelineExecutor, false⟩ :: E, ?_, ?_, ?_⟩
  · cases hl : pullLoop env fuel {} 0
      ((p.log (submission input p.context) false).log .PullingPipelineExecutor false) <;>
    · rw [hl] at hE1
      simp only [Completion.process, Completion.withValue] at hE1 ⊢
      rw [hE1]
      simp [Process.log]
  · intro e he
    rcases List.mem_cons.mp he with rfl | he
    · exact Or.inl rfl
    · exact Or.inr (hE2 e he)
  · cases hl : pullLoop env fuel {} 0
      ((p.log (submission input p.context) false).log .PullingPipelineExecutor false) with
    | normal a q => exact Or.inl ⟨q, rfl⟩
    | thrown q => exact Or.inl ⟨q, rfl⟩
    | running q =>
      refine Or.inr ⟨⟨q, rfl⟩, ?_⟩
      intro k hk
      by_contra hends
      obtain ⟨E', -, -, hor⟩ := pullLoop_leaves env k fuel
        ((p.log (submission input p.context) false).log .PullingPipelineExecutor false)
        (by simpa using hends) hk
      rcases hor with ⟨x, hx⟩ | hx <;> simp [hl] at hx

theorem entry_eq (env : Env) (fuel : Nat) (data : Nat → UInt8) (size : Nat) (p : Process) :
    LLVMFuzzerTestOneInput env fuel data size p =
      (tryCatchAll (staticInitialized env >>= fun _ => execPart env fuel (stdString data size))
        p).withValue 0 := by
  unfold LLVMFuzzerTestOneInput
  rw [bind_pure_apply, tryBody_eq]

/-- A call that finds the guard set goes to the submission at once. -/
theorem entry_of_initialized (env : Env) (fuel : Nat) (data : Nat → UInt8) (size : Nat)
    (p : Process) (h : p.initialized ≠ none) :
    LLVMFuzzerTestOneInput env fuel data size p =
      (tryCatchAll (execPart env fuel (stdString data size)) p).withValue 0 := by
  rw [entry_eq]
  cases hi : p.initialized with
  | none => exact absurd hi h
  | some v => simp [tryCatchAll, bind_apply, Harness.bind, staticInitialized, hi]

/-- A call that finds the guard unset and whose initializer completes sets the guard and goes
on to the submission. -/
theorem entry_of_init_ok (env : Env) (fuel : Nat) (data : Nat → UInt8) (size : Nat)
    (p : Process) (h : p.initialized = none) (hall : ∀ c ∈ initCalls env, env.throws c = false) :
    LLVMFuzzerTestOneInput env fuel data size p =
      (tryCatchAll (execPart env fuel (stdString data size)) (afterInit env p)).withValue 0 := by
  rw [entry_eq]
  simp [tryCatchAll, bind_apply, Harness.bind, staticInitialized, h,
    initializeLambda_all_return env p hall, afterInit]

/-- A call that finds the guard unset and whose initializer throws returns 0 at once, with the
guard still unset. -/
theorem entry_of_init_throw (env : Env) (fuel : Nat) (data : Nat → UInt8) (size : Nat)
    (p : Process) (h : p.initialized = none) (pre : List Call) (c : Call) (post : List Call)
    (hsplit : initCalls env = pre ++ c :: post) (hpre : ∀ x ∈ pre, env.throws x = false)
    (hc : env.throws c = true) :
    ∃ p', LLVMFuzzerTestOneInput env fuel data size p = .normal 0 p' ∧
      p'.trace = p.trace ++ pre.map Event.returned ++ [Event.threw c] ∧
      p'.initialized = none := by
  obtain ⟨p', h1, h2, h3⟩ := initializeLambda_first_throw env p pre c post hsplit hpre hc
  refine ⟨p', ?_, h2, by rw [h3, h]⟩
  rw [entry_eq]
  simp [tryCatchAll, bind_apply, Harness.bind, staticInitialized, h, h1, Completion.withValue]

theorem withValue_process {α β : Type} (b : β) (x : Completion α) :
    (x.withValue b).process = x.process := by
  cases x <;> rfl

theorem initCalls_not_isExec (env : Env) : ∀ c ∈ initCalls env, c.isExec = false := by
  intro c hc
  simp only [initCalls, List.mem_cons, List.mem_singleton, List.not_mem_nil, or_false] at hc
  rcases hc with h | h | h | h | h | h | h | h | h | h | h | h <;> rw [h] <;> rfl

/-- What one call of the entry point does, in the three cases: the guard is set; the guard is
unset and the initializer completes; the guard is unset and the initializer throws. -/
theorem entry_summary (env : Env) (fuel : Nat) (data : Nat → UInt8) (size : Nat)
    (p : Process) :
    (p.initialized ≠ none ∧ ∃ b E,
        (LLVMFuzzerTestOneInput env fuel data size p).process =
          { p with trace := p.trace ++ ⟨submission (stdString data size) p.context, b⟩ :: E } ∧
        ∀ e ∈ E, e.call = .PullingPipelineExecutor ∨ e.call = .pull) ∨
    (p.initialized = none ∧ (∀ c ∈ initCalls env, env.throws c = false) ∧ ∃ b E,
        (LLVMFuzzerTestOneInput env fuel data size p).process =
          { afterInit env p with
            trace := p.trace ++ (initCalls env).map Event.returned ++
              ⟨submission (stdString data size) (some env.createGlobal), b⟩ :: E } ∧
        ∀ e ∈ E, e.call = .PullingPipelineExecutor ∨ e.call = .pull) ∨
    (p.initialized = none ∧ ∃ pre c post, initCalls env = pre ++ c :: post ∧
        (∀ x ∈ pre, env.throws x = false) ∧ env.throws c = true ∧
        ∃ p', LLVMFuzzerTestOneInput env fuel data size p = .normal 0 p' ∧
          p'.trace = p.trace ++ pre.map Event.returned ++ [Event.threw c] ∧
          p'.initialized = none) := by
  by_cases hi : p.initialized = none
  · rcases throws_split env (initCalls env) with hall | ⟨pre, c, post, h1, h2, h3⟩
    · right; left
      refine ⟨hi, hall, ?_⟩
      obtain ⟨b, E, hE, hE'⟩ :=
        execPart_summary env fuel (stdString data size) (afterInit env p)
      refine ⟨b, E, ?_, hE'.1⟩
      rw [entry_of_init_ok env fuel data size p hi hall, withValue_process, hE]
      simp [afterInit]
    · right; right
      exact ⟨hi, pre, c, post, h1, h2, h3,
        entry_of_init_throw env fuel data size p hi pre c post h1 h2 h3⟩
  · left
    refine ⟨hi, ?_⟩
    obtain ⟨b, E, hE, hE'⟩ := execPart_summary env fuel (stdString data size) p
    refine ⟨b, E, ?_, hE'.1⟩
    rw [entry_of_initialized env fuel data size p hi, withValue_process, hE]

/-- A call returns 0 when some pull within the fuel ends the loop. -/
theorem entry_returns (env : Env) (fuel : Nat) (data : Nat → UInt8) (size : Nat)
    (p : Process) (hends : ∃ k, k + 2 ≤ fuel ∧ (env.pull k).endsLoop = true) :
    ∃ q, LLVMFuzzerTestOneInput env fuel data size p = .normal 0 q := by
  obtain ⟨k, hk, hk'⟩ := hends
  have key : ∀ p0 : Process, ∃ q,
      (tryCatchAll (execPart env fuel (stdString data size)) p0).withValue (0 : Int) =
        .normal 0 q := by
    intro p0
    obtain ⟨b, E, -, -, hor⟩ := execPart_summary env fuel (stdString data size) p0
    rcases hor with ⟨q, hq⟩ | ⟨-, hno⟩
    · exact ⟨q, by rw [hq]; rfl⟩
    · rw [hno k hk] at hk'
      exact absurd hk' (by simp)
  by_cases hi : p.initialized = none
  · rcases throws_split env (initCalls env) with hall | ⟨pre, c, post, h1, h2, h3⟩
    · rw [entry_of_init_ok env fuel data size p hi hall]
      exact key _
    · obtain ⟨p', hp', -⟩ := entry_of_init_throw env fuel data size p hi pre c post h1 h2 h3
      exact ⟨p', hp'⟩
  · rw [entry_of_initialized env fuel data size p hi]
    exact key _

/-! ## Sequences of calls -/

theorem fuzz_process_cons (fuel : Nat) (c : FuzzCall) (cs : List FuzzCall) (p : Process) :
    (fuzz fuel (c :: cs) p).process =
      match LLVMFuzzerTestOneInput c.env fuel c.data c.size p with
      | .normal _ p' => (fuzz fuel cs p').process
      | .thrown p' => p'
      | .running p' => p' := by
  simp only [fuzz]
  cases LLVMFuzzerTestOneInput c.env fuel c.data c.size p with
  | normal r p' =>
    show (match fuzz fuel cs p' with
      | .normal rs p'' => Completion.normal (r :: rs) p''
      | .thrown p'' => Completion.thrown p''
      | .running p'' => Completion.running p'').process = (fuzz fuel cs p').process
    cases fuzz fuel cs p' <;> rfl
  | thrown p' => rfl
  | running p' => rfl

/-- The state after a sequence of calls is the state after some number of its calls have run one
after the other: either `fuzz` goes through the whole list, or it stops in a call. -/
theorem fuzz_process_step (fuel : Nat) (c : FuzzCall) (cs : List FuzzCall) (p : Process) :
    (fuzz fuel (c :: cs) p).process =
        (fuzz fuel cs (LLVMFuzzerTestOneInput c.env fuel c.data c.size p).process).process ∨
      (fuzz fuel (c :: cs) p).process =
        (LLVMFuzzerTestOneInput c.env fuel c.data c.size p).process := by
  rw [fuzz_process_cons]
  cases LLVMFuzzerTestOneInput c.env fuel c.data c.size p with
  | normal r p' => left; rfl
  | thrown p' => right; rfl
  | running p' => right; rfl

/-! ## The catalog accessor -/

theorem fillData_cons {Creator : Type} (registry : List (String × Creator))
    (column0 : MutableColumn) (others : MutableColumns) :
    StorageSystemDatabaseEngines.fillData registry (column0 :: others) =
      some ((column0 ++ registry.map Prod.fst) :: others) := by
  induction registry generalizing column0 with
  | nil => simp [StorageSystemDatabaseEngines.fillData]
  | cons entry rest ih =>
    obtain ⟨engine, creator⟩ := entry
    simp [StorageSystemDatabaseEngines.fillData, insertAt, ih]

/-- C8: `getNamesAndTypes` returns exactly one column, named "name", of string type; and for
every registry and every `res_columns` that has a column 0, `fillData` completes and leaves
column 0 equal to its prior contents followed by the keys of the registry in the iteration
order of the registry (one value per entry, none left out, none moved), and leaves every other
column as it was. -/
theorem StorageSystemDatabaseEngines.one_row_per_engine :
    StorageSystemDatabaseEngines.getNamesAndTypes =
        [{ name := "name", type := DataType.DataTypeString }] ∧
      ∀ (Creator : Type) (registry : List (String × Creator)) (column0 : MutableColumn)
        (others : MutableColumns),
        StorageSystemDatabaseEngines.fillData registry (column0 :: others) =
          some ((column0 ++ registry.map Prod.fst) :: others) :=
  ⟨rfl, fun _ registry column0 others => fillData_cons registry column0 others⟩

/-! ## The initializer -/

/-- C10: the initializer makes a fixed sequence of calls: it creates the shared holder, creates
the global context from that holder, makes it the global context, sets its application type to
`LOCAL`, and then registers functions, aggregate functions, table functions, databases,
storages, dictionaries, disks (with `global_skip_access_check = true`) and formats, each once
and in this order.  When every call returns, the lambda returns `true`, the two statics hold
the new holder and the new context, and exactly these twelve calls have been appended to the
trace; when a call throws, the lambda leaves by the exception and exactly the calls before it
have returned, followed by the call that threw, and no later call is made. -/
theorem initializeLambda_effect_sequence (env : Env) (p : Process) :
    initCalls env =
        [ .createShared, .createGlobal (some env.createShared),
          .makeGlobalContext (some env.createGlobal),
          .setApplicationType (some env.createGlobal) .LOCAL,
          .registerFunctions, .registerAggregateFunctions, .registerTableFunctions,
          .registerDatabases, .registerStorages, .registerDictionaries, .registerDisks true,
          .registerFormats ] ∧
      ((∀ c ∈ initCalls env, env.throws c = false) →
        initializeLambda env p =
          .normal true
            { shared_context := some env.createShared
              context := some env.createGlobal
              initialized := p.initialized
              trace := p.trace ++ (initCalls env).map Event.returned }) ∧
      (∀ pre c post, initCalls env = pre ++ c :: post → (∀ x ∈ pre, env.throws x = false) →
        env.throws c = true →
        ∃ p', initializeLambda env p = .thrown p' ∧
          p'.trace = p.trace ++ pre.map Event.returned ++ [Event.threw c]) := by
  refine ⟨rfl, initializeLambda_all_return env p, ?_⟩
  intro pre c post hsplit hpre hc
  obtain ⟨p', h1, h2, -⟩ := initializeLambda_first_throw env p pre c post hsplit hpre hc
  exact ⟨p', h1, h2⟩

/-- The initializer run from the initial process, once with an engine in which nothing throws
and once with an engine in which the last registration throws. -/
theorem initializeLambda_effect_sequence_witness :
    initializeLambda Env.quiet Process.initial =
        .normal true
          { shared_context := some 1
            context := some 2
            initialized := none
            trace := (initCalls Env.quiet).map Event.returned } ∧
      ∃ p', initializeLambda Env.brokenFormats Process.initial = .thrown p' ∧
        p'.trace = Process.initial.trace ++
          ([ .createShared, .createGlobal (some 3), .makeGlobalContext (some 4),
             .setApplicationType (some 4) .LOCAL, .registerFunctions,
             .registerAggregateFunctions, .registerTableFunctions, .registerDatabases,
             .registerStorages, .registerDictionaries, .registerDisks true ] : List Call).map
            Event.returned ++ [Event.threw .registerFormats] :=
  ⟨(initializeLambda_effect_sequence Env.quiet Process.initial).2.1 (fun _ _ => rfl),
   (initializeLambda_effect_sequence Env.brokenFormats Process.initial).2.2 _ _ [] rfl
     (by decide) (by decide)⟩

/-! ## The pull loop -/

/-- An outcome that is neither a throw, nor `false`, nor a non-empty block, is `true` with the
empty block. -/
theorem continues_eq {o : PullOutcome} (hret : o ≠ .throws)
    (hgo : ∀ more b, o = .returns more b → more = true ∧ b.toBool = false) :
    o = .returns true {} := by
  cases o with
  | throws => exact absurd rfl hret
  | returns more b =>
    obtain ⟨h1, h2⟩ := hgo more b rfl
    rw [h1, Block.eq_empty_of_toBool h2]

/-- A call that reaches the loop, when the loop completes with the pull events `E`: the call
returns 0 and the pulls it made are those of `E`. -/
theorem entry_of_loop_normal (env : Env) (fuel : Nat) (data : Nat → UInt8) (size : Nat)
    (p : Process) (E : List Event)
    (hreach : p.initialized ≠ none ∨ ∀ c ∈ initCalls env, env.throws c = false)
    (hexec : ∀ c, c.isExec = true → env.throws c = false)
    (hloop : ∀ p0 : Process, ∃ x,
      pullLoop env fuel {} 0 p0 = .normal x { p0 with trace := p0.trace ++ E }) :
    ∃ q pre, LLVMFuzzerTestOneInput env fuel data size p = .normal 0 q ∧
      q.trace = p.trace ++ pre ++ E ∧ ∀ e ∈ pre, e.call ≠ .pull := by
  have key : ∀ p0 : Process,
      (tryCatchAll (execPart env fuel (stdString data size)) p0).withValue (0 : Int) =
        .normal 0
          { p0 with
            trace := p0.trace ++
              [Event.returned (submission (stdString data size) p0.context),
                Event.returned .PullingPipelineExecutor] ++ E } := by
    intro p0
    obtain ⟨x, hx⟩ := hloop
      ((p0.log (submission (stdString data size) p0.context) false).log
        .PullingPipelineExecutor false)
    simp only [tryCatchAll, execPart_eq]
    rw [if_neg (by simp [hexec _ (show (submission (stdString data size) p0.context).isExec
        = true from rfl)]),
      if_neg (by simp [hexec _ (show Call.PullingPipelineExecutor.isExec = true from rfl)]),
      hx]
    simp [Completion.withValue, Process.log, Event.returned]
  by_cases hi : p.initialized = none
  · have hall : ∀ c ∈ initCalls env, env.throws c = false := by
      rcases hreach with h | h
      · exact absurd hi h
      · exact h
    have hq := key (afterInit env p)
    rw [← entry_of_init_ok env fuel data size p hi hall] at hq
    refine ⟨_, (initCalls env).map Event.returned ++
      [Event.returned (submission (stdString data size) (some env.createGlobal)),
        Event.returned .PullingPipelineExecutor], hq, ?_, ?_⟩
    · simp [afterInit]
    · intro e he
      rcases List.mem_append.mp he with he | he
      · obtain ⟨c, hc, rfl⟩ := List.mem_map.mp he
        intro hpull
        have := initCalls_not_isExec env c hc
        simp only [Event.returned] at hpull
        rw [hpull] at this
        exact absurd this (by decide)
      · simp only [List.mem_cons, List.mem_singleton, List.not_mem_nil, or_false] at he
        rcases he with rfl | rfl <;> simp [Event.returned, submission]
  · have hq := key p
    rw [← entry_of_initialized env fuel data size p hi] at hq
    refine ⟨_, [Event.returned (submission (stdString data size) p.context),
        Event.returned .PullingPipelineExecutor], hq, ?_, ?_⟩
    · simp
    · intro e he
      simp only [List.mem_cons, List.mem_singleton, List.not_mem_nil, or_false] at he
      rcases he with rfl | rfl <;> simp [Event.returned, submission]

/-- C6: the loop, entered with the empty block of line 50, stops exactly at the first pull that
returns `false` or leaves a non-empty block.  When the pulls return values and pull number
`k + 1` is the first whose `bool` is false or whose block is non-empty (every earlier pull
returned `true` with an empty block), the loop completes having made exactly `k + 1` pulls, all
returned, and none after; `k + 1` is at least one.  So does a call of the entry point in which
the submission succeeds (it reaches line 47, and neither `executeQuery` nor the construction of
the executor throws): it returns 0 and the pulls it made are exactly these `k + 1`, the last
events of its trace. -/
theorem pullLoop_stops_at_first_end (env : Env) (fuel k : Nat) (p : Process) (more : Bool)
    (batch : Block)
    (hearlier : ∀ j < k, env.pull j ≠ .throws ∧
      ∀ more' b, env.pull j = .returns more' b → more' = true ∧ b.toBool = false)
    (hat : env.pull k = .returns more batch)
    (hstop : more = false ∨ batch.toBool = true)
    (hfuel : k + 2 ≤ fuel) :
    pullLoop env fuel {} 0 p =
        .normal (if more then .blockNonEmpty else .pullReturnedFalse)
          { p with trace := p.trace ++ List.replicate (k + 1) (Event.returned .pull) } ∧
      ∀ (data : Nat → UInt8) (size : Nat),
        (p.initialized ≠ none ∨ ∀ c ∈ initCalls env, env.throws c = false) →
        (∀ c, c.isExec = true → env.throws c = false) →
        ∃ q pre, LLVMFuzzerTestOneInput env fuel data size p = .normal 0 q ∧
          q.trace = p.trace ++ pre ++ List.replicate (k + 1) (Event.returned .pull) ∧
          ∀ e ∈ pre, e.call ≠ .pull := by
  have h : ∀ p0 : Process, pullLoop env fuel {} 0 p0 =
      .normal (if more then .blockNonEmpty else .pullReturnedFalse)
        { p0 with trace := p0.trace ++ List.replicate (k + 1) (Event.returned .pull) } := by
    intro p0
    have h := pullLoop_exact env k fuel 0 p0 (.returns more batch)
      (fun j hj => by
        rw [Nat.zero_add]
        exact continues_eq (hearlier j hj).1 (hearlier j hj).2)
      (by rw [Nat.zero_add]; exact hat)
      (by rcases hstop with h | h <;> simp [PullOutcome.endsLoop, h])
      hfuel
    rw [h, loopEnd]
  refine ⟨h p, ?_⟩
  intro data size hreach hexec
  exact entry_of_loop_normal env fuel data size p _ hreach hexec (fun p0 => ⟨_, h p0⟩)

/-- A pipeline whose third pull is the first to leave a non-empty block: three pulls, in the
loop alone and in the first call of the entry point on `SELECT 1`. -/
theorem pullLoop_stops_at_first_end_witness :
    pullLoop Env.thirdPullHasRows 4 {} 0 Process.initial =
        .normal .blockNonEmpty
          { Process.initial with
            trace := Process.initial.trace ++ List.replicate 3 (Event.returned .pull) } ∧
      ∃ q pre, LLVMFuzzerTestOneInput Env.thirdPullHasRows 4 select1 8 Process.initial =
          .normal 0 q ∧
        q.trace = Process.initial.trace ++ pre ++ List.replicate 3 (Event.returned .pull) ∧
        ∀ e ∈ pre, e.call ≠ .pull := by
  have h := pullLoop_stops_at_first_end Env.thirdPullHasRows 4 2 Process.initial true
    { data := [["1"]] }
    (by
      intro j hj
      have h2 : Env.thirdPullHasRows.pull j = .returns true {} := by
        simp [Env.thirdPullHasRows, hj]
      rw [h2]
      refine ⟨by simp, ?_⟩
      intro more' b hb
      cases hb
      exact ⟨rfl, rfl⟩)
    rfl (Or.inr rfl) (by decide)
  exact ⟨h.1, h.2 select1 8 (Or.inr (fun _ _ => rfl)) (fun _ _ => rfl)⟩

/-- C7: the loop terminates on a terminating pipeline.  If some pull among the first `n`
returns `false`, the loop, given fuel for them, leaves (normally or by an exception of a pull)
after at most `n` pulls.  If moreover every block the pipeline leaves is empty, no pull throws
before the first `false`, and pull number `m + 1` is the first to return `false`, the loop
completes because that pull returned `false` (the exit is `pullReturnedFalse`, not
`blockNonEmpty`) after exactly `m + 1` pulls. -/
theorem pullLoop_terminates (env : Env) (p : Process) :
    (∀ n fuel, (∃ j, j < n ∧ ∃ b, env.pull j = .returns false b) → n < fuel →
      ∃ E, E.length ≤ n ∧ (∀ e ∈ E, e.call = .pull) ∧
        ((∃ x, pullLoop env fuel {} 0 p = .normal x { p with trace := p.trace ++ E }) ∨
          pullLoop env fuel {} 0 p = .thrown { p with trace := p.trace ++ E })) ∧
    (∀ m fuel, (∀ j more b, env.pull j = .returns more b → b.toBool = false) →
      (∀ j < m, env.pull j ≠ .throws) → (∀ j < m, ∀ b, env.pull j ≠ .returns false b) →
      (∃ b, env.pull m = .returns false b) → m + 2 ≤ fuel →
      pullLoop env fuel {} 0 p =
        .normal .pullReturnedFalse
          { p with trace := p.trace ++ List.replicate (m + 1) (Event.returned .pull) }) := by
  constructor
  · rintro n fuel ⟨j, hj, b, hb⟩ hfuel
    obtain ⟨E, h1, h2, h3⟩ := pullLoop_leaves env j fuel p
      (by rw [hb]; rfl) (by omega)
    exact ⟨E, by omega, h2, h3⟩
  · rintro m fuel hempty hret hfirst ⟨b, hb⟩ hfuel
    have h := pullLoop_exact env m fuel 0 p (.returns false b)
      (fun j hj => by
        rw [Nat.zero_add]
        refine continues_eq (hret j hj) ?_
        intro more' b' hb'
        refine ⟨?_, hempty j more' b' hb'⟩
        cases more' with
        | true => rfl
        | false => exact absurd hb' (hfirst j hj b'))
      (by rw [Nat.zero_add]; exact hb) rfl hfuel
    rw [h, loopEnd]
    rfl

/-- The loop on an empty-result pipeline whose second pull reports exhaustion: it leaves
within two pulls, and it leaves by the `false` after exactly two pulls. -/
theorem pullLoop_terminates_witness :
    (∃ E, E.length ≤ 2 ∧ (∀ e ∈ E, e.call = .pull) ∧
      ((∃ x, pullLoop Env.emptyResult 3 {} 0 Process.initial =
          .normal x { Process.initial with trace := Process.initial.trace ++ E }) ∨
        pullLoop Env.emptyResult 3 {} 0 Process.initial =
          .thrown { Process.initial with trace := Process.initial.trace ++ E })) ∧
    pullLoop Env.emptyResult 3 {} 0 Process.initial =
      .normal .pullReturnedFalse
        { Process.initial with
          trace := Process.initial.trace ++ List.replicate 2 (Event.returned .pull) } :=
  ⟨(pullLoop_terminates Env.emptyResult Process.initial).1 2 3 ⟨1, by decide, {}, rfl⟩
      (by decide),
   (pullLoop_terminates Env.emptyResult Process.initial).2 1 3
      (by
        intro j more b hb
        simp only [Env.emptyResult] at hb
        split at hb <;> cases hb <;> rfl)
      (by
        intro j hj
        obtain rfl : j = 0 := by omega
        simp [Env.emptyResult])
      (by
        intro j hj b
        obtain rfl : j = 0 := by omega
        simp [Env.emptyResult])
      ⟨{}, rfl⟩ (by decide)⟩

/-! ## The query text -/

theorem stdString_length (data : Nat → UInt8) (size : Nat) :
    (stdString data size).length = size := by
  simp [stdString]

theorem stdString_getElem? (data : Nat → UInt8) (size i : Nat) (h : i < size) :
    (stdString data size)[i]? = some (data i) := by
  simp [stdString, List.getElem?_map, List.getElem?_range h]

theorem not_isExecuteQuery_of_exec_tail {E : List Event}
    (h : ∀ e ∈ E, e.call = .PullingPipelineExecutor ∨ e.call = .pull) :
    ∀ e ∈ E, e.call.isExecuteQuery = false := by
  intro e he
  rcases h e he with h | h <;> rw [h] <;> rfl

theorem not_isExecuteQuery_of_init (env : Env) :
    ∀ e ∈ (initCalls env).map Event.returned, e.call.isExecuteQuery = false := by
  intro e he
  obtain ⟨c, hc, rfl⟩ := List.mem_map.mp he
  simp only [initCalls, List.mem_cons, List.mem_singleton, List.not_mem_nil, or_false] at hc
  rcases hc with h | h | h | h | h | h | h | h | h | h | h | h <;> rw [h] <;> rfl

/-- C9: the query text is the buffer, byte for byte.  The string built from `data` and `size`
has length `size` and its `i`-th byte is `data[i]`; and in every call that reaches the
submission (the guard is set, or the initializer completes) exactly one `executeQuery` call is
made, its query text is that string, its flags have `internal = true`, and its stage is
`Complete`. -/
theorem submitted_query_is_the_buffer (env : Env) (fuel : Nat) (data : Nat → UInt8)
    (size : Nat) (p : Process)
    (hreach : p.initialized ≠ none ∨ ∀ c ∈ initCalls env, env.throws c = false) :
    (stdString data size).length = size ∧
      (∀ i, i < size → (stdString data size)[i]? = some (data i)) ∧
      ∃ pre context raised post,
        (LLVMFuzzerTestOneInput env fuel data size p).process.trace =
          p.trace ++ pre ++
            ⟨.executeQuery (stdString data size) context { internal := true } .Complete,
              raised⟩ :: post ∧
        (∀ e ∈ pre, e.call.isExecuteQuery = false) ∧
        (∀ e ∈ post, e.call.isExecuteQuery = false) := by
  refine ⟨stdString_length data size, stdString_getElem? data size, ?_⟩
  rcases entry_summary env fuel data size p with
    ⟨-, b, E, h1, h2⟩ | ⟨-, -, b, E, h1, h2⟩ | ⟨hi, pre, c, post, h1, h2, h3, -⟩
  · exact ⟨[], p.context, b, E, by rw [h1]; simp [submission], by simp,
      not_isExecuteQuery_of_exec_tail h2⟩
  · exact ⟨(initCalls env).map Event.returned, some env.createGlobal, b, E,
      by rw [h1]; simp [submission], not_isExecuteQuery_of_init env,
      not_isExecuteQuery_of_exec_tail h2⟩
  · exfalso
    rcases hreach with h | h
    · exact h hi
    · have := h c (by rw [h1]; simp)
      rw [h3] at this
      exact absurd this (by simp)

/-- The first call, with the eight bytes of `SELECT 1` and an engine in which nothing
throws. -/
theorem submitted_query_is_the_buffer_witness :
    (stdString select1 8).length = 8 ∧
      (∀ i, i < 8 → (stdString select1 8)[i]? = some (select1 i)) ∧
      ∃ pre context raised post,
        (LLVMFuzzerTestOneInput Env.quiet 2 select1 8 Process.initial).process.trace =
          Process.initial.trace ++ pre ++
            ⟨.executeQuery (stdString select1 8) context { internal := true } .Complete,
              raised⟩ :: post ∧
        (∀ e ∈ pre, e.call.isExecuteQuery = false) ∧
        (∀ e ∈ post, e.call.isExecuteQuery = false) :=
  submitted_query_is_the_buffer Env.quiet 2 select1 8 Process.initial
    (Or.inr (fun _ _ => rfl))

/-! ## Containment -/

/-- On a pipeline whose pulls all return `true` with an empty block the loop is still running
however much fuel it is given. -/
theorem pullLoop_spinning (fuel n : Nat) (p : Process) :
    ∃ q, pullLoop Env.spinning fuel {} n p = .running q := by
  induction fuel generalizing n p with
  | zero => exact ⟨p, rfl⟩
  | succ fuel ih =>
    obtain ⟨q, hq⟩ := ih (n + 1) (p.log .pull false)
    exact ⟨q, by rw [pullLoop_succ_empty]; simpa [Env.spinning] using hq⟩

/-- C1, as stated, fails: with an engine in which no call throws and every pull returns `true`
with an empty block, the first call of the entry point on the empty buffer does not return,
whatever the fuel. -/
theorem entry_does_not_return_on_spinning_pipeline :
    ¬ ∃ fuel q,
      LLVMFuzzerTestOneInput Env.spinning fuel emptyBuffer 0 Process.initial = .normal 0 q := by
  rintro ⟨fuel, q, h⟩
  rw [entry_of_init_ok Env.spinning fuel emptyBuffer 0 Process.initial rfl (fun _ _ => rfl)]
    at h
  obtain ⟨q', hq'⟩ := pullLoop_spinning fuel 0
    (((afterInit Env.spinning Process.initial).log
      (submission (stdString emptyBuffer 0)
        (afterInit Env.spinning Process.initial).context) false).log
      .PullingPipelineExecutor false)
  simp only [tryCatchAll, execPart_eq] at h
  rw [if_neg (by simp [Env.spinning]), if_neg (by simp [Env.spinning]), hq'] at h
  simp [Completion.withValue] at h

/-- C1, amended: for every buffer and every behaviour of the engine in which some pull of the
call does not return `true` with an empty block (it throws, returns `false`, or leaves a
non-empty block), the entry point returns 0 and no exception leaves it; this holds for every
call of any sequence of calls, from any state of the process. -/
theorem entry_returns_zero (fuel : Nat) (calls : List FuzzCall) (p : Process)
    (hends : ∀ c ∈ calls, ∃ k, k + 2 ≤ fuel ∧ c.env.pull k ≠ .returns true {}) :
    ∃ q, fuzz fuel calls p = .normal (List.replicate calls.length 0) q := by
  induction calls generalizing p with
  | nil => exact ⟨p, rfl⟩
  | cons c cs ih =>
    obtain ⟨k, hk, hne⟩ := hends c (List.mem_cons_self _ _)
    have hk' : (c.env.pull k).endsLoop = true := by
      by_contra hcon
      exact hne (not_endsLoop (by simpa using hcon))
    obtain ⟨q1, hq1⟩ := entry_returns c.env fuel c.data c.size p ⟨k, hk, hk'⟩
    obtain ⟨q, hq⟩ := ih q1 (fun x hx => hends x (List.mem_cons_of_mem _ hx))
    exact ⟨q, by simp [fuzz, hq1, hq, List.replicate_succ]⟩

/-- Three calls: one in which everything succeeds, one in which the submission of `SELECT 1`
meets an engine whose last registration would throw, and one more. -/
theorem entry_returns_zero_witness :
    ∃ q, fuzz 2 [⟨Env.quiet, emptyBuffer, 0⟩, ⟨Env.brokenFormats, select1, 8⟩,
        ⟨Env.quiet, select1, 8⟩] Process.initial = .normal [0, 0, 0] q :=
  entry_returns_zero 2 _ Process.initial (by
    intro c hc
    simp only [List.mem_cons, List.mem_singleton, List.not_mem_nil, or_false] at hc
    rcases hc with rfl | rfl | rfl <;> exact ⟨0, by decide, by simp [Env.quiet, Env.brokenFormats]⟩)

/-! ## The one-shot guard -/

theorem isExec_of_exec_tail {E : List Event}
    (h : ∀ e ∈ E, e.call = .PullingPipelineExecutor ∨ e.call = .pull) :
    ∀ e ∈ E, e.call.isExec = true := by
  intro e he
  rcases h e he with h | h <;> rw [h] <;> rfl

/-- A call that finds the guard set leaves the statics as they are and makes no call of the
initializer. -/
theorem entry_keeps_guard (env : Env) (fuel : Nat) (data : Nat → UInt8) (size : Nat)
    (p : Process) (h : p.initialized ≠ none) :
    ∃ S, (LLVMFuzzerTestOneInput env fuel data size p).process =
        { p with trace := p.trace ++ S } ∧ ∀ e ∈ S, e.call.isExec = true := by
  rcases entry_summary env fuel data size p with
    ⟨-, b, E, h1, h2⟩ | ⟨hi, -⟩ | ⟨hi, -⟩
  · refine ⟨_ :: E, h1, ?_⟩
    intro e he
    rcases List.mem_cons.mp he with rfl | he
    · rfl
    · exact isExec_of_exec_tail h2 e he
  · exact absurd hi h
  · exact absurd hi h

/-- Once the guard is set, no sequence of calls changes the statics or makes a call of the
initializer. -/
theorem fuzz_keeps_guard (fuel : Nat) (calls : List FuzzCall) (p : Process)
    (h : p.initialized ≠ none) :
    ∃ S, (fuzz fuel calls p).process = { p with trace := p.trace ++ S } ∧
      ∀ e ∈ S, e.call.isExec = true := by
  induction calls generalizing p with
  | nil => exact ⟨[], by simp [fuzz, Completion.process], by simp⟩
  | cons c cs ih =>
    obtain ⟨S1, h1, h2⟩ := entry_keeps_guard c.env fuel c.data c.size p h
    rcases fuzz_process_step fuel c cs p with hstep | hstep
    · obtain ⟨S2, h3, h4⟩ := ih (LLVMFuzzerTestOneInput c.env fuel c.data c.size p).process
        (by rw [h1]; exact h)
      refine ⟨S1 ++ S2, ?_, ?_⟩
      · rw [hstep, h3, h1]
        simp
      · intro e he
        rcases List.mem_append.mp he with he | he
        · exact h2 e he
        · exact h4 e he
    · exact ⟨S1, by rw [hstep, h1], h2⟩

/-- C3, as stated, fails: when `registerFormats` throws in the first call, the guard is unset
after that call, and a second call runs the initializer again: the trace of the two calls holds
two `createShared` calls and two `registerFunctions` calls. -/
theorem failed_first_call_does_not_set_guard :
    (LLVMFuzzerTestOneInput Env.brokenFormats 2 emptyBuffer 0
        Process.initial).process.initialized = none ∧
      ((fuzz 2 [⟨Env.brokenFormats, emptyBuffer, 0⟩, ⟨Env.quiet, emptyBuffer, 0⟩]
        Process.initial).process.trace.filter
          (fun e => decide (e.call = .createShared))).length = 2 ∧
      ((fuzz 2 [⟨Env.brokenFormats, emptyBuffer, 0⟩, ⟨Env.quiet, emptyBuffer, 0⟩]
        Process.initial).process.trace.filter
          (fun e => decide (e.call = .registerFunctions))).length = 2 := by
  decide

/-- A thrower among the calls of the initializer rules out a complete run. -/
theorem not_all_return {env : Env} (hthrow : ∃ c ∈ initCalls env, env.throws c = true) :
    ¬ ∀ c ∈ initCalls env, env.throws c = false := by
  obtain ⟨c, hc, ht⟩ := hthrow
  intro hall
  rw [hall c hc] at ht
  exact absurd ht (by simp)

/-- A call that finds the guard unset and whose initializer throws: it returns 0, the guard is
still unset, and the calls it made are calls of the initializer. -/
theorem entry_of_failed_init (env : Env) (fuel : Nat) (data : Nat → UInt8) (size : Nat)
    (p : Process) (hguard : p.initialized = none)
    (hthrow : ∃ c ∈ initCalls env, env.throws c = true) :
    ∃ p1 new, LLVMFuzzerTestOneInput env fuel data size p = .normal 0 p1 ∧
      p1.trace = p.trace ++ new ∧ (∀ e ∈ new, e.call.isExec = false) ∧
      p1.initialized = none := by
  rcases entry_summary env fuel data size p with
    ⟨hi, -⟩ | ⟨-, hall, -⟩ | ⟨-, pre, c, post, hs, hpre, hc, p1, h1, h2, h3⟩
  · exact absurd hguard hi
  · exact absurd hall (not_all_return hthrow)
  refine ⟨p1, pre.map Event.returned ++ [Event.threw c], h1, by rw [h2, List.append_assoc],
    ?_, h3⟩
  intro e he
  have hmem : e.call ∈ initCalls env := by
    rw [hs]
    rcases List.mem_append.mp he with he | he
    · obtain ⟨x, hx, rfl⟩ := List.mem_map.mp he
      exact List.mem_append_left _ hx
    · rw [List.mem_singleton.mp he]
      simp [Event.threw]
  exact initCalls_not_isExec env _ hmem

/-- C3, amended: the guard counts only an initialization that completed.  A call that finds
the guard unset and whose initializer throws leaves the guard unset; a call that finds it unset
and whose initializer completes sets it; and once the guard is set it stays set through every
later sequence of calls, none of which changes the holder or the context or makes a call of the
initializer. -/
theorem guard_counts_completed_initialization (env : Env) (fuel : Nat) (data : Nat → UInt8)
    (size : Nat) (p : Process) (hguard : p.initialized = none) :
    ((∃ c ∈ initCalls env, env.throws c = true) →
        (LLVMFuzzerTestOneInput env fuel data size p).process.initialized = none) ∧
      ((∀ c ∈ initCalls env, env.throws c = false) →
        (LLVMFuzzerTestOneInput env fuel data size p).process.initialized = some true) ∧
      ∀ (calls : List FuzzCall) (q : Process), q.initialized ≠ none →
        ∃ S, (fuzz fuel calls q).process = { q with trace := q.trace ++ S } ∧
          ∀ e ∈ S, e.call.isInit = false := by
  refine ⟨?_, ?_, ?_⟩
  · intro hthrow
    rcases entry_summary env fuel data size p with
      ⟨hi, -⟩ | ⟨-, hall, -⟩ | ⟨-, pre, c, post, -, -, -, p', h1, -, h3⟩
    · exact absurd hguard hi
    · exact absurd hall (not_all_return hthrow)
    · rw [h1]; exact h3
  · intro hall
    rcases entry_summary env fuel data size p with
      ⟨hi, -⟩ | ⟨-, -, b, E, h1, -⟩ | ⟨-, pre, c, post, hs, -, hc, -⟩
    · exact absurd hguard hi
    · rw [h1]; rfl
    · exact absurd hall (not_all_return ⟨c, by rw [hs]; simp, hc⟩)
  · intro calls q hq
    obtain ⟨S, h1, h2⟩ := fuzz_keeps_guard fuel calls q hq
    exact ⟨S, h1, fun e he => by simp [Call.isInit, h2 e he]⟩

/-- The first call with an engine whose last registration throws leaves the guard unset; with
an engine in which nothing throws it sets the guard, and two more calls after it keep the
statics and make no call of the initializer. -/
theorem guard_counts_completed_initialization_witness :
    (LLVMFuzzerTestOneInput Env.brokenFormats 2 emptyBuffer 0
        Process.initial).process.initialized = none ∧
      (LLVMFuzzerTestOneInput Env.quiet 2 emptyBuffer 0
        Process.initial).process.initialized = some true ∧
      ∃ S, (fuzz 2 [⟨Env.brokenFormats, select1, 8⟩, ⟨Env.quiet, emptyBuffer, 0⟩]
            (afterInit Env.quiet Process.initial)).process =
          { afterInit Env.quiet Process.initial with
            trace := (afterInit Env.quiet Process.initial).trace ++ S } ∧
        ∀ e ∈ S, e.call.isInit = false :=
  ⟨(guard_counts_completed_initialization Env.brokenFormats 2 emptyBuffer 0 Process.initial
      rfl).1 ⟨.registerFormats, by decide, by decide⟩,
   (guard_counts_completed_initialization Env.quiet 2 emptyBuffer 0 Process.initial
      rfl).2.1 (fun _ _ => rfl),
   (guard_counts_completed_initialization Env.quiet 2 emptyBuffer 0 Process.initial
      rfl).2.2 _ (afterInit Env.quiet Process.initial) (by decide)⟩

/-- A call that finds the guard unset runs the lambda: its trace continues the trace of the
lambda run from the same state, and its statics are those the lambda left. -/
theorem entry_runs_initializer (env : Env) (fuel : Nat) (data : Nat → UInt8) (size : Nat)
    (p : Process) (h : p.initialized = none) :
    ∃ rest, (LLVMFuzzerTestOneInput env fuel data size p).process.trace =
        (initializeLambda env p).process.trace ++ rest ∧
      (LLVMFuzzerTestOneInput env fuel data size p).process.shared_context =
        (initializeLambda env p).process.shared_context ∧
      (LLVMFuzzerTestOneInput env fuel data size p).process.context =
        (initializeLambda env p).process.context := by
  rw [entry_eq, withValue_process]
  cases hl : initializeLambda env p with
  | normal v p' =>
    obtain ⟨b, E, hE, -⟩ := execPart_summary env fuel (stdString data size)
      { p' with initialized := some v }
    have hrun : tryCatchAll
        (staticInitialized env >>= fun _ => execPart env fuel (stdString data size)) p =
        tryCatchAll (execPart env fuel (stdString data size))
          { p' with initialized := some v } := by
      simp [tryCatchAll, bind_apply, Harness.bind, staticInitialized, h, hl]
    rw [hrun, hE]
    exact ⟨_, rfl, rfl, rfl⟩
  | thrown p' =>
    refine ⟨[], ?_⟩
    simp [tryCatchAll, bind_apply, Harness.bind, staticInitialized, h, hl, Completion.process]
  | running p' =>
    refine ⟨[], ?_⟩
    simp [tryCatchAll, bind_apply, Harness.bind, staticInitialized, h, hl, Completion.process]

/-- C4: a call whose initializer throws returns 0 and makes no call other than calls of the
initializer (no query is submitted), and the next call runs the initializer again: its trace
continues with the trace of the lambda run anew, from its first step `createShared`, and its
holder and context are those this run of the lambda leaves; when the calls of that second run
all return, the whole sequence is made again and the holder and the context are the new
ones. -/
theorem failed_initialization_is_retried (env : Env) (fuel : Nat) (data : Nat → UInt8)
    (size : Nat) (p : Process) (env2 : Env) (fuel2 : Nat) (data2 : Nat → UInt8) (size2 : Nat)
    (hguard : p.initialized = none) (hthrow : ∃ c ∈ initCalls env, env.throws c = true) :
    ∃ p1 new, LLVMFuzzerTestOneInput env fuel data size p = .normal 0 p1 ∧
      p1.trace = p.trace ++ new ∧ (∀ e ∈ new, e.call.isExec = false) ∧
      (∃ rest, (LLVMFuzzerTestOneInput env2 fuel2 data2 size2 p1).process.trace =
        p1.trace ++ ⟨.createShared, env2.throws .createShared⟩ :: rest) ∧
      (∃ rest, (LLVMFuzzerTestOneInput env2 fuel2 data2 size2 p1).process.trace =
          (initializeLambda env2 p1).process.trace ++ rest ∧
        (LLVMFuzzerTestOneInput env2 fuel2 data2 size2 p1).process.shared_context =
          (initializeLambda env2 p1).process.shared_context ∧
        (LLVMFuzzerTestOneInput env2 fuel2 data2 size2 p1).process.context =
          (initializeLambda env2 p1).process.context) ∧
      ((∀ c ∈ initCalls env2, env2.throws c = false) →
        ∃ rest, (LLVMFuzzerTestOneInput env2 fuel2 data2 size2 p1).process =
          { shared_context := some env2.createShared
            context := some env2.createGlobal
            initialized := some true
            trace := p1.trace ++ (initCalls env2).map Event.returned ++ rest }) := by
  obtain ⟨p1, new, h1, h2, hnew, h3⟩ := entry_of_failed_init env fuel data size p hguard hthrow
  refine ⟨p1, new, h1, h2, hnew, ?_, entry_runs_initializer env2 fuel2 data2 size2 p1 h3, ?_⟩
  · rcases entry_summary env2 fuel2 data2 size2 p1 with
      ⟨hi, -⟩ | ⟨-, hall, b, E, h4, -⟩ | ⟨-, pre2, c2, post2, hs2, hpre2, hc2, p2, h4, h5, -⟩
    · exact absurd h3 hi
    · refine ⟨(initCalls env2).tail.map Event.returned ++
        ⟨submission (stdString data2 size2) (some env2.createGlobal), b⟩ :: E, ?_⟩
      rw [h4]
      have h0 : env2.throws .createShared = false := hall _ (by simp [initCalls])
      simp [h0, initCalls, Event.returned]
    · rw [h4]
      simp only [Completion.process, h5]
      cases pre2 with
      | nil =>
        have hc2' : c2 = .createShared := by
          simp only [initCalls, List.nil_append, List.cons.injEq] at hs2
          exact hs2.1.symm
        subst hc2'
        exact ⟨[], by simp [hc2, Event.threw]⟩
      | cons x pre2 =>
        have hx : x = .createShared := by
          simp only [initCalls, List.cons_append, List.cons.injEq] at hs2
          exact hs2.1.symm
        subst hx
        have h0 : env2.throws .createShared = false := hpre2 _ (List.mem_cons_self _ _)
        exact ⟨pre2.map Event.returned ++ [Event.threw c2],
          by simp [h0, Event.returned]⟩
  · intro hall
    rcases entry_summary env2 fuel2 data2 size2 p1 with
      ⟨hi, -⟩ | ⟨-, -, b, E, h4, -⟩ | ⟨-, pre2, c2, post2, hs2, -, hc2, -⟩
    · exact absurd h3 hi
    · exact ⟨⟨submission (stdString data2 size2) (some env2.createGlobal), b⟩ :: E,
        by rw [h4]; simp [afterInit]⟩
    · exact absurd hall (not_all_return ⟨c2, by rw [hs2]; simp, hc2⟩)

/-- A first call in which `registerFormats` throws, followed by a call in which nothing
throws. -/
theorem failed_initialization_is_retried_witness :
    ∃ p1 new, LLVMFuzzerTestOneInput Env.brokenFormats 2 emptyBuffer 0 Process.initial =
        .normal 0 p1 ∧
      p1.trace = Process.initial.trace ++ new ∧ (∀ e ∈ new, e.call.isExec = false) ∧
      (∃ rest, (LLVMFuzzerTestOneInput Env.quiet 2 select1 8 p1).process.trace =
        p1.trace ++ ⟨.createShared, false⟩ :: rest) ∧
      (∃ rest, (LLVMFuzzerTestOneInput Env.quiet 2 select1 8 p1).process.trace =
          (initializeLambda Env.quiet p1).process.trace ++ rest ∧
        (LLVMFuzzerTestOneInput Env.quiet 2 select1 8 p1).process.shared_context =
          (initializeLambda Env.quiet p1).process.shared_context ∧
        (LLVMFuzzerTestOneInput Env.quiet 2 select1 8 p1).process.context =
          (initializeLambda Env.quiet p1).process.context) ∧
      ∃ rest, (LLVMFuzzerTestOneInput Env.quiet 2 select1 8 p1).process =
        { shared_context := some 1
          context := some 2
          initialized := some true
          trace := p1.trace ++ (initCalls Env.quiet).map Event.returned ++ rest } := by
  obtain ⟨p1, new, h1, h2, h3, h4, h5, h6⟩ :=
    failed_initialization_is_retried Env.brokenFormats 2 emptyBuffer 0 Process.initial
      Env.quiet 2 select1 8 rfl ⟨.registerFormats, by decide, by decide⟩
  exact ⟨p1, new, h1, h2, h3, h4, h5, h6 (fun _ _ => rfl)⟩

theorem filter_isInit_init_append (env : Env) (S : List Event)
    (hS : ∀ e ∈ S, e.call.isInit = false) :
    ((initCalls env).map Event.returned ++ S).filter (fun e => e.call.isInit) =
      (initCalls env).map Event.returned := by
  rw [List.filter_append]
  have h1 : S.filter (fun e => e.call.isInit) = [] := by
    rw [List.filter_eq_nil_iff]
    intro e he
    simp [hS e he]
  have h2 : ((initCalls env).map Event.returned).filter (fun e => e.call.isInit) =
      (initCalls env).map Event.returned := by
    rw [List.filter_eq_self]
    intro e he
    obtain ⟨c, hc, rfl⟩ := List.mem_map.mp he
    simp [Call.isInit, Event.returned, initCalls_not_isExec env c hc]
  rw [h1, h2, List.append_nil]

/-- The first call, when its initializer completes. -/
theorem first_call_of_init_ok (env : Env) (fuel : Nat) (data : Nat → UInt8) (size : Nat)
    (hok : ∀ x ∈ initCalls env, env.throws x = false) :
    ∃ S, (LLVMFuzzerTestOneInput env fuel data size Process.initial).process =
        { shared_context := some env.createShared
          context := some env.createGlobal
          initialized := some true
          trace := (initCalls env).map Event.returned ++ S } ∧
      ∀ e ∈ S, e.call.isExec = true := by
  rcases entry_summary env fuel data size Process.initial with
    ⟨hi, -⟩ | ⟨-, -, b, E, h1, h2⟩ | ⟨-, pre, c, post, hs, -, hc, -⟩
  · exact absurd rfl hi
  · refine ⟨⟨submission (stdString data size) (some env.createGlobal), b⟩ :: E, ?_, ?_⟩
    · rw [h1]; simp [afterInit, Process.initial]
    · intro e he
      rcases List.mem_cons.mp he with rfl | he
      · rfl
      · exact isExec_of_exec_tail h2 e he
  · exact absurd hok (not_all_return ⟨c, by rw [hs]; simp, hc⟩)

/-- C2: initialization is a one-shot.  In a sequence of one or more calls started in the
initial process, when the initializer of the first call completes, the trace of the whole
sequence begins with the calls of the initializer, each made once and returned, and holds no
other construction or registration call; the holder and the context are those created in the
first call; and the construction and registration calls of the whole sequence are those of its
first call alone. -/
theorem initialization_happens_once (fuel : Nat) (c : FuzzCall) (rest : List FuzzCall)
    (hok : ∀ x ∈ initCalls c.env, c.env.throws x = false) :
    (∃ S, (fuzz fuel (c :: rest) Process.initial).process =
          { shared_context := some c.env.createShared
            context := some c.env.createGlobal
            initialized := some true
            trace := (initCalls c.env).map Event.returned ++ S } ∧
        ∀ e ∈ S, e.call.isInit = false) ∧
      (fuzz fuel (c :: rest) Process.initial).process.trace.filter (fun e => e.call.isInit) =
        (initCalls c.env).map Event.returned ∧
      (fuzz fuel (c :: rest) Process.initial).process.trace.filter (fun e => e.call.isInit) =
        (LLVMFuzzerTestOneInput c.env fuel c.data c.size
          Process.initial).process.trace.filter (fun e => e.call.isInit) := by
  obtain ⟨S1, h1, h2⟩ := first_call_of_init_ok c.env fuel c.data c.size hok
  have h2' : ∀ e ∈ S1, e.call.isInit = false := fun e he => by simp [Call.isInit, h2 e he]
  have hfirst : (LLVMFuzzerTestOneInput c.env fuel c.data c.size
      Process.initial).process.trace.filter (fun e => e.call.isInit) =
        (initCalls c.env).map Event.returned := by
    rw [h1]
    exact filter_isInit_init_append c.env S1 h2'
  have hall : ∃ S, (fuzz fuel (c :: rest) Process.initial).process =
        { shared_context := some c.env.createShared
          context := some c.env.createGlobal
          initialized := some true
          trace := (initCalls c.env).map Event.returned ++ S } ∧
      ∀ e ∈ S, e.call.isInit = false := by
    rcases fuzz_process_step fuel c rest Process.initial with hstep | hstep
    · obtain ⟨S2, h3, h4⟩ := fuzz_keeps_guard fuel rest
        (LLVMFuzzerTestOneInput c.env fuel c.data c.size Process.initial).process
        (by rw [h1]; simp)
      refine ⟨S1 ++ S2, ?_, ?_⟩
      · rw [hstep, h3, h1]
        simp
      · intro e he
        rcases List.mem_append.mp he with he | he
        · exact h2' e he
        · simp [Call.isInit, h4 e he]
    · exact ⟨S1, by rw [hstep, h1], h2'⟩
  obtain ⟨S, hS1, hS2⟩ := hall
  have hwhole : (fuzz fuel (c :: rest) Process.initial).process.trace.filter
      (fun e => e.call.isInit) = (initCalls c.env).map Event.returned := by
    rw [hS1]
    exact filter_isInit_init_append c.env S hS2
  exact ⟨⟨S, hS1, hS2⟩, hwhole, by rw [hwhole, hfirst]⟩

/-- Three calls, the first with an engine in which nothing throws, the second with an engine
whose `registerFormats` would throw. -/
theorem initialization_happens_once_witness :
    (∃ S, (fuzz 2 [⟨Env.quiet, select1, 8⟩, ⟨Env.brokenFormats, emptyBuffer, 0⟩,
            ⟨Env.quiet, emptyBuffer, 0⟩] Process.initial).process =
          { shared_context := some Env.quiet.createShared
            context := some Env.quiet.createGlobal
            initialized := some true
            trace := (initCalls Env.quiet).map Event.returned ++ S } ∧
        ∀ e ∈ S, e.call.isInit = false) ∧
      (fuzz 2 [⟨Env.quiet, select1, 8⟩, ⟨Env.brokenFormats, emptyBuffer, 0⟩,
          ⟨Env.quiet, emptyBuffer, 0⟩] Process.initial).process.trace.filter
            (fun e => e.call.isInit) =
        (initCalls Env.quiet).map Event.returned ∧
      (fuzz 2 [⟨Env.quiet, select1, 8⟩, ⟨Env.brokenFormats, emptyBuffer, 0⟩,
          ⟨Env.quiet, emptyBuffer, 0⟩] Process.initial).process.trace.filter
            (fun e => e.call.isInit) =
        (LLVMFuzzerTestOneInput Env.quiet 2 select1 8
          Process.initial).process.trace.filter (fun e => e.call.isInit) :=
  initialization_happens_once 2 ⟨Env.quiet, select1, 8⟩
    [⟨Env.brokenFormats, emptyBuffer, 0⟩, ⟨Env.quiet, emptyBuffer, 0⟩] (fun _ _ => rfl)

/-! ## Initialization before execution -/

theorem InitDone.append {t : List Event} (h : InitDone t) (s : List Event) :
    InitDone (t ++ s) := by
  obtain ⟨env, a, b, rfl⟩ := h
  exact ⟨env, a, b ++ s, by simp⟩

/-- An element of `t ++ s` lies in `t` or in `s`. -/
theorem split_append {t s pre post : List Event} {e : Event}
    (h : t ++ s = pre ++ e :: post) :
    (∃ post', t = pre ++ e :: post') ∨ (∃ s1, pre = t ++ s1 ∧ s = s1 ++ e :: post) := by
  rcases List.append_eq_append_iff.mp h with ⟨a', h1, h2⟩ | ⟨c', h1, h2⟩
  · exact Or.inr ⟨a', h1, h2⟩
  · cases c' with
    | nil =>
      right
      refine ⟨[], by simpa using h1.symm, ?_⟩
      rw [List.nil_append] at h2
      rw [List.nil_append, h2]
    | cons x c' =>
      left
      simp only [List.cons_append, List.cons.injEq] at h2
      exact ⟨c', by rw [h1, h2.1]⟩

theorem ExecAfterInit.append_of_no_exec {t s : List Event} (h : ExecAfterInit t)
    (hs : ∀ e ∈ s, e.call.isExec = false) : ExecAfterInit (t ++ s) := by
  intro pre e post hsplit hexec
  rcases split_append hsplit with ⟨post', h1⟩ | ⟨s1, -, h2⟩
  · exact h pre e post' h1 hexec
  · have := hs e (by rw [h2]; simp)
    rw [this] at hexec
    exact absurd hexec (by simp)

theorem ExecAfterInit.append_of_done {t s : List Event} (h : ExecAfterInit t)
    (hd : InitDone t) : ExecAfterInit (t ++ s) := by
  intro pre e post hsplit hexec
  rcases split_append hsplit with ⟨post', h1⟩ | ⟨s1, h1, -⟩
  · exact h pre e post' h1 hexec
  · rw [h1]
    exact hd.append s1

theorem Process.initial_ordered : Process.initial.Ordered := by
  refine ⟨fun h => absurd rfl h, ?_⟩
  intro pre e post h
  simp [Process.initial] at h

theorem entry_ordered (env : Env) (fuel : Nat) (data : Nat → UInt8) (size : Nat)
    (p : Process) (h : p.Ordered) :
    (LLVMFuzzerTestOneInput env fuel data size p).process.Ordered := by
  rcases entry_summary env fuel data size p with
    ⟨hi, b, E, h1, -⟩ | ⟨-, -, b, E, h1, -⟩ | ⟨-, pre, c, post, hs, -, -, p', h1, h2, h3⟩
  · rw [h1]
    exact ⟨fun _ => (h.1 hi).append _, h.2.append_of_done (h.1 hi)⟩
  · rw [h1]
    have hd : InitDone (p.trace ++ (initCalls env).map Event.returned) :=
      ⟨env, p.trace, [], by simp⟩
    have ho : ExecAfterInit (p.trace ++ (initCalls env).map Event.returned) := by
      apply h.2.append_of_no_exec
      intro e he
      obtain ⟨x, hx, rfl⟩ := List.mem_map.mp he
      exact initCalls_not_isExec env x hx
    exact ⟨fun _ => hd.append _, ho.append_of_done hd⟩
  · rw [h1]
    refine ⟨fun hne => absurd h3 hne, ?_⟩
    show ExecAfterInit p'.trace
    rw [h2, List.append_assoc]
    apply h.2.append_of_no_exec
    intro e he
    apply initCalls_not_isExec env
    rw [hs]
    rcases List.mem_append.mp he with he | he
    · obtain ⟨x, hx, rfl⟩ := List.mem_map.mp he
      exact List.mem_append_left _ hx
    · rw [List.mem_singleton.mp he]
      simp [Event.threw]

theorem fuzz_ordered (fuel : Nat) (calls : List FuzzCall) (p : Process) (h : p.Ordered) :
    (fuzz fuel calls p).process.Ordered := by
  induction calls generalizing p with
  | nil => exact h
  | cons c cs ih =>
    have h1 := entry_ordered c.env fuel c.data c.size p h
    rcases fuzz_process_step fuel c cs p with hstep | hstep
    · rw [hstep]; exact ih _ h1
    · rw [hstep]; exact h1

/-- C5: initialization happens before every execution call.  In the trace of any sequence of
calls started in the initial process, also one cut short inside a call, every `executeQuery`
call (and every executor construction and every pull) is preceded by a complete run of the
initializer: its twelve calls, in order, all returned.  In particular a call whose initializer
throws makes only calls of the initializer: it submits no query and makes no pull. -/
theorem execution_only_after_initialization (fuel : Nat) (calls : List FuzzCall)
    (pre : List Event) (e : Event) (post : List Event)
    (hsplit : (fuzz fuel calls Process.initial).process.trace = pre ++ e :: post)
    (hexec : e.call.isExec = true) :
    (∃ env a b, pre = a ++ (initCalls env).map Event.returned ++ b) ∧
      ∀ (env : Env) (data : Nat → UInt8) (size : Nat) (p : Process),
        p.initialized = none → (∃ c ∈ initCalls env, env.throws c = true) →
        ∃ new, (LLVMFuzzerTestOneInput env fuel data size p).process.trace = p.trace ++ new ∧
          ∀ x ∈ new, x.call.isExec = false := by
  refine ⟨(fuzz_ordered fuel calls Process.initial Process.initial_ordered).2 pre e post hsplit
    hexec, ?_⟩
  intro env data size p hguard hthrow
  obtain ⟨p1, new, h1, h2, h3, -⟩ := entry_of_failed_init env fuel data size p hguard hthrow
  exact ⟨new, by rw [h1]; exact h2, h3⟩

/-- A first call in which `registerFormats` throws, then a call in which nothing throws: the
submission of the second call comes after the complete run of the initializer made by the
second call, and the first call made no call of the execution part. -/
theorem execution_only_after_initialization_witness :
    (∃ env a b,
        ((initCalls Env.brokenFormats).take 11).map Event.returned ++
            [Event.threw .registerFormats] ++ (initCalls Env.quiet).map Event.returned =
          a ++ (initCalls env).map Event.returned ++ b) ∧
      ∃ new, (LLVMFuzzerTestOneInput Env.brokenFormats 2 emptyBuffer 0
          Process.initial).process.trace = Process.initial.trace ++ new ∧
        ∀ x ∈ new, x.call.isExec = false := by
  have h := execution_only_after_initialization 2
    [⟨Env.brokenFormats, emptyBuffer, 0⟩, ⟨Env.quiet, emptyBuffer, 0⟩]
    (((initCalls Env.brokenFormats).take 11).map Event.returned ++
      [Event.threw .registerFormats] ++ (initCalls Env.quiet).map Event.returned)
    ⟨submission (stdString emptyBuffer 0) (some 2), false⟩
    [⟨.PullingPipelineExecutor, false⟩, ⟨.pull, false⟩]
    (by decide) rfl
  exact ⟨h.1, h.2 Env.brokenFormats emptyBuffer 0 Process.initial rfl
    ⟨.registerFormats, by decide, by decide⟩⟩

end DB
